import Mathlib

/-!
# Verification of the rust-multibase repository

Shallow embedding of `src/lib.rs` (base registry, public `encode`/`decode`)
and `src/base.rs` (big-integer radix converter) into Lean 4, together with
proofs settling the frozen claims about the natural-language specification.

Conventions of the embedding:

* Byte buffers (`&[u8]`, `Vec<u8>`) are `List ℕ` whose elements are below 256.
* The Rust `u16` arithmetic in the converter is modelled with plain `ℕ`.
  This is exact for every alphabet the registry can return: alphabet lengths
  are at most 64, digits stay below the base, and the carries are bounded by
  `base`, so every intermediate value stays far below `2 ^ 16` and the `u16`
  operations never wrap.  The one genuine `u8` truncation in the source
  (`*byte = carry as u8`) is modelled explicitly with `% 256` (the `β = 256`
  instance of `propagate`), and the index write `i as u8` of the
  alphabet-lookup table with `% 256`.
* `Result<T, Error>` is `Except Error T`.  The converter's `decode` returns
  `Option (List ℕ)` with `none` for `DecodeError`.
* The `while carry > 0 { digits.push(carry % base); carry /= base }` loop of
  the converter is modelled by the fuelled `drainFuel`; `drain` runs it with
  fuel equal to the initial carry, which is proved sufficient whenever the
  base is at least 2 (`drainFuel_sufficient`).  For base 1 the source loop
  never terminates on a positive carry, and correspondingly `drainFuel`
  returns `none` for every fuel (`drainFuel_base_one`).  Hence `none` from
  the converter's `encode` models nontermination of the source.
-/

deriving instance DecidableEq for Except

/-- `enum Error` of `src/lib.rs` (the misspelling `UnkownBase` is the
source's). -/
inductive Error where
  | UnsupportedBase
  | UnkownBase
  | InvalidBaseString
deriving DecidableEq, Repr

/-- `enum Base` of `src/lib.rs`: the 21 registered base variants. -/
inductive Base where
  | Base1
  | Base2
  | Base8
  | Base10
  | Base16
  | Base16Upper
  | Base32hex
  | Base32hexUpper
  | Base32hexpad
  | Base32hexpadUpper
  | Base32
  | Base32Upper
  | Base32pad
  | Base32padUpper
  | Base32z
  | Base58flickr
  | Base58btc
  | Base64
  | Base64pad
  | Base64url
  | Base64urlpad
deriving DecidableEq, Repr, Fintype

/-- `Base::code` of `src/lib.rs`: the one-byte code of each variant. -/
def Base.code : Base → ℕ
  | .Base1 => 49
  | .Base2 => 48
  | .Base8 => 55
  | .Base10 => 57
  | .Base16 => 102
  | .Base16Upper => 70
  | .Base32hex => 118
  | .Base32hexUpper => 86
  | .Base32hexpad => 116
  | .Base32hexpadUpper => 84
  | .Base32 => 98
  | .Base32Upper => 66
  | .Base32pad => 99
  | .Base32padUpper => 67
  | .Base32z => 104
  | .Base58flickr => 90
  | .Base58btc => 122
  | .Base64 => 109
  | .Base64pad => 77
  | .Base64url => 117
  | .Base64urlpad => 85

/-- `Base::alphabet` of `src/lib.rs`.  Each byte-string literal of the source
is written out as its list of ASCII byte values; the padded variants return
`Err(UnsupportedBase)` exactly as in the source.  Note the source's
`Base64url` alphabet really has only 62 symbols (no `-` = 45 and no
`_` = 95). -/
def Base.alphabet : Base → Except Error (List ℕ)
  | .Base1 =>
      -- b"1"
      Except.ok [49]
  | .Base2 =>
      -- b"01"
      Except.ok [48, 49]
  | .Base8 =>
      -- b"01234567"
      Except.ok [48, 49, 50, 51, 52, 53, 54, 55]
  | .Base10 =>
      -- b"0123456789"
      Except.ok [48, 49, 50, 51, 52, 53, 54, 55, 56, 57]
  | .Base16 =>
      -- b"0123456789abcdef"
      Except.ok [48, 49, 50, 51, 52, 53, 54, 55, 56, 57, 97, 98, 99, 100, 101, 102]
  | .Base16Upper =>
      -- b"0123456789ABCDEF"
      Except.ok [48, 49, 50, 51, 52, 53, 54, 55, 56, 57, 65, 66, 67, 68, 69, 70]
  | .Base32hex =>
      -- b"0123456789abcdefghijklmnopqrstuv"
      Except.ok [48, 49, 50, 51, 52, 53, 54, 55, 56, 57,
                 97, 98, 99, 100, 101, 102, 103, 104, 105, 106, 107, 108, 109,
                 110, 111, 112, 113, 114, 115, 116, 117, 118]
  | .Base32hexUpper =>
      -- b"0123456789ABCDEFGHIJKLMNOPQRSTUV"
      Except.ok [48, 49, 50, 51, 52, 53, 54, 55, 56, 57,
                 65, 66, 67, 68, 69, 70, 71, 72, 73, 74, 75, 76, 77,
                 78, 79, 80, 81, 82, 83, 84, 85, 86]
  | .Base32hexpad => Except.error Error.UnsupportedBase
  | .Base32hexpadUpper => Except.error Error.UnsupportedBase
  | .Base32 =>
      -- b"abcdefghijklmnopqrstuvwxyz234567"
      Except.ok [97, 98, 99, 100, 101, 102, 103, 104, 105, 106, 107, 108, 109,
                 110, 111, 112, 113, 114, 115, 116, 117, 118, 119, 120, 121, 122,
                 50, 51, 52, 53, 54, 55]
  | .Base32Upper =>
      -- b"ABCDEFGHIJKLMNOPQRSTUVWXYZ234567"
      Except.ok [65, 66, 67, 68, 69, 70, 71, 72, 73, 74, 75, 76, 77,
                 78, 79, 80, 81, 82, 83, 84, 85, 86, 87, 88, 89, 90,
                 50, 51, 52, 53, 54, 55]
  | .Base32pad => Except.error Error.UnsupportedBase
  | .Base32padUpper => Except.error Error.UnsupportedBase
  | .Base32z =>
      -- b"ybndrfg8ejkmcpqxot1uwisza345h769"
      Except.ok [121, 98, 110, 100, 114, 102, 103, 56, 101, 106, 107, 109, 99,
                 112, 113, 120, 111, 116, 49, 117, 119, 105, 115, 122, 97, 51,
                 52, 53, 104, 55, 54, 57]
  | .Base58flickr =>
      -- b"123456789abcdefghijkmnopqrstuvwxyzABCDEFGHJKLMNPQRSTUVWXYZ"
      Except.ok [49, 50, 51, 52, 53, 54, 55, 56, 57,
                 97, 98, 99, 100, 101, 102, 103, 104, 105, 106, 107,
                 109, 110, 111, 112, 113, 114, 115, 116, 117, 118, 119, 120, 121, 122,
                 65, 66, 67, 68, 69, 70, 71, 72,
                 74, 75, 76, 77, 78,
                 80, 81, 82, 83, 84, 85, 86, 87, 88, 89, 90]
  | .Base58btc =>
      -- b"123456789ABCDEFGHJKLMNPQRSTUVWXYZabcdefghijkmnopqrstuvwxyz"
      Except.ok [49, 50, 51, 52, 53, 54, 55, 56, 57,
                 65, 66, 67, 68, 69, 70, 71, 72,
                 74, 75, 76, 77, 78,
                 80, 81, 82, 83, 84, 85, 86, 87, 88, 89, 90,
                 97, 98, 99, 100, 101, 102, 103, 104, 105, 106, 107,
                 109, 110, 111, 112, 113, 114, 115, 116, 117, 118, 119, 120, 121, 122]
  | .Base64 =>
      -- b"ABCDEFGHIJKLMNOPQRSTUVWXYZabcdefghijklmnopqrstuvwxyz0123456789+/"
      Except.ok [65, 66, 67, 68, 69, 70, 71, 72, 73, 74, 75, 76, 77,
                 78, 79, 80, 81, 82, 83, 84, 85, 86, 87, 88, 89, 90,
                 97, 98, 99, 100, 101, 102, 103, 104, 105, 106, 107, 108, 109,
                 110, 111, 112, 113, 114, 115, 116, 117, 118, 119, 120, 121, 122,
                 48, 49, 50, 51, 52, 53, 54, 55, 56, 57, 43, 47]
  | .Base64pad => Except.error Error.UnsupportedBase
  | .Base64url =>
      -- b"ABCDEFGHIJKLMNOPQRSTUVWXYZabcdefghijklmnopqrstuvwxyz0123456789"
      Except.ok [65, 66, 67, 68, 69, 70, 71, 72, 73, 74, 75, 76, 77,
                 78, 79, 80, 81, 82, 83, 84, 85, 86, 87, 88, 89, 90,
                 97, 98, 99, 100, 101, 102, 103, 104, 105, 106, 107, 108, 109,
                 110, 111, 112, 113, 114, 115, 116, 117, 118, 119, 120, 121, 122,
                 48, 49, 50, 51, 52, 53, 54, 55, 56, 57]
  | .Base64urlpad => Except.error Error.UnsupportedBase

/-- `Base::from_code` of `src/lib.rs`, the Rust `match` on the code byte
written as the equivalent chain of equality tests, in source order. -/
def Base.fromCode (c : ℕ) : Except Error Base :=
  if c = 49 then Except.ok Base.Base1
  else if c = 48 then Except.ok Base.Base2
  else if c = 55 then Except.ok Base.Base8
  else if c = 57 then Except.ok Base.Base10
  else if c = 102 then Except.ok Base.Base16
  else if c = 70 then Except.ok Base.Base16Upper
  else if c = 118 then Except.ok Base.Base32hex
  else if c = 86 then Except.ok Base.Base32hexUpper
  else if c = 116 then Except.ok Base.Base32hexpad
  else if c = 84 then Except.ok Base.Base32hexpadUpper
  else if c = 98 then Except.ok Base.Base32
  else if c = 66 then Except.ok Base.Base32Upper
  else if c = 99 then Except.ok Base.Base32pad
  else if c = 67 then Except.ok Base.Base32padUpper
  else if c = 104 then Except.ok Base.Base32z
  else if c = 90 then Except.ok Base.Base58flickr
  else if c = 122 then Except.ok Base.Base58btc
  else if c = 109 then Except.ok Base.Base64
  else if c = 77 then Except.ok Base.Base64pad
  else if c = 117 then Except.ok Base.Base64url
  else if c = 85 then Except.ok Base.Base64urlpad
  else Except.error Error.UnkownBase

/-! ## The converter (`src/base.rs`)

Both inner `for` loops of the converter have the same shape: run a carry
through the existing little-endian digit vector (multiply the represented
number by `m` and add the incoming value `c`, in radix `β`), then push the
remaining carry digit by digit.  `encode` is the instance `β = base`,
`m = 256`; `decode` is the instance `β = 256`, `m = base`.
-/

/-- One pass of the carry through the existing digit vector:
`for j in 0..digits.len() { carry += digits[j] * m; digits[j] = carry % β;
carry /= β }`.  Returns the updated vector and the remaining carry. -/
def propagate (β m : ℕ) : ℕ → List ℕ → List ℕ × ℕ
  | carry, [] => ([], carry)
  | carry, d :: ds =>
      ((carry + d * m) % β :: (propagate β m ((carry + d * m) / β) ds).1,
       (propagate β m ((carry + d * m) / β) ds).2)

/-- The source's `while carry > 0 { digits.push(carry % base); carry /= base }`
loop, with an explicit step budget.  `none` means the loop has not reached
`carry = 0` within `fuel` iterations. -/
def drainFuel (β : ℕ) : ℕ → ℕ → Option (List ℕ)
  | _, 0 => some []
  | 0, _ + 1 => none
  | fuel + 1, c + 1 => (drainFuel β fuel ((c + 1) / β)).map (fun r => (c + 1) % β :: r)

/-- Run the carry-pushing loop with fuel equal to the initial carry.  The fuel
is provably sufficient for every radix `β ≥ 2` (`drainFuel_sufficient`), and
for `β = 1` no fuel is ever sufficient (`drainFuel_base_one`): `none` models
the source loop running forever. -/
def drain (β c : ℕ) : Option (List ℕ) := drainFuel β c c

/-- One full iteration of the converter's outer loop on one input unit `c`:
carry pass through the vector, then push the remaining carry. -/
def stepConv (β m : ℕ) (state : List ℕ) (c : ℕ) : Option (List ℕ) :=
  (drain β (propagate β m c state).2).map
    (fun extra => (propagate β m c state).1 ++ extra)

/-- The converter's outer loop over the whole input. -/
def convLoop (β m : ℕ) : List ℕ → List ℕ → Option (List ℕ)
  | state, [] => some state
  | state, c :: cs =>
      match stepConv β m state c with
      | none => none
      | some s2 => convLoop β m s2 cs

/-- The leading-run count used by both directions:
`input.iter().take(input.len() - 1).take_while(|b| *b == leader).count()`. -/
def leadersCount (input : List ℕ) (leader : ℕ) : ℕ :=
  ((input.take (input.length - 1)).takeWhile (fun b => b = leader)).length

/-- `base::encode` of `src/base.rs`.  `none` models nontermination of the
carry loop (possible only when the alphabet has fewer than 2 symbols). -/
def bencode (alphabet input : List ℕ) : Option (List ℕ) :=
  if input = [] then some [] else
    (convLoop alphabet.length 256 [0] input).map (fun digits =>
      ((digits ++ List.replicate (leadersCount input 0) 0).reverse).map
        (fun d => alphabet.getD d 0))

/-- The write loop `for (i, byte) in alphabet.iter().enumerate()
{ alphabet_map[*byte as usize] = i as u8 }` over the table initialised to
255, read back at index `c`: later writes win, and the stored index is
truncated to `u8` exactly as in the source. -/
def mapLookupGo (c : ℕ) : ℕ → ℕ → List ℕ → ℕ
  | _, acc, [] => acc
  | i, acc, a :: rest => mapLookupGo c (i + 1) (if a = c then i % 256 else acc) rest

/-- The resolved `alphabet_map` entry for byte `c` (255 = invalid). -/
def mapLookup (alphabet : List ℕ) (c : ℕ) : ℕ := mapLookupGo c 0 255 alphabet

/-- The symbol loop of `base::decode`: look each symbol up in the table,
failing on the sentinel 255, then multiply-accumulate into the little-endian
byte vector (radix 256, multiplier `base`). -/
def decLoop (alphabet : List ℕ) : List ℕ → List ℕ → Option (List ℕ)
  | state, [] => some state
  | state, c :: cs =>
      if mapLookup alphabet c = 255 then none
      else
        match stepConv 256 alphabet.length state (mapLookup alphabet c) with
        | none => none
        | some s2 => decLoop alphabet s2 cs

/-- `base::decode` of `src/base.rs`.  `none` models `Err(DecodeError)`. -/
def bdecode (alphabet input : List ℕ) : Option (List ℕ) :=
  if input = [] then some [] else
    match alphabet.head? with
    | none => none
    | some leader =>
        (decLoop alphabet [0] input).map (fun bytes =>
          (bytes ++ List.replicate (leadersCount input leader) 0).reverse)

/-! ## The public entry points (`src/lib.rs`) -/

/-- `Encodable::encode for [u8]`: resolve the alphabet, run the converter,
prepend the code byte.  The outer `Option` models termination: `none` means
the converter's carry loop runs forever (the alphabet-resolution error is
returned before the converter ever runs, hence inside `some`). -/
def pubEncode (base : Base) (data : List ℕ) : Option (Except Error (List ℕ)) :=
  match base.alphabet with
  | Except.error e => some (Except.error e)
  | Except.ok alphabet =>
      (bencode alphabet data).map (fun encoded => Except.ok (base.code :: encoded))

/-- `Decodable::decode for [u8]`: read the code byte (an empty input reads as
byte 0), resolve the variant and its alphabet, decode the remainder;
`DecodeError` surfaces as `InvalidBaseString` via the `From` impl. -/
def pubDecode (data : List ℕ) : Except Error (Base × List ℕ) :=
  match Base.fromCode (data.headD 0) with
  | Except.error e => Except.error e
  | Except.ok base =>
      match base.alphabet with
      | Except.error e => Except.error e
      | Except.ok alphabet =>
          match bdecode alphabet (data.drop 1) with
          | none => Except.error Error.InvalidBaseString
          | some decoded => Except.ok (base, decoded)

/-! ## Canonical little-endian representation

The digit/byte vector of the converter always equals `canon β v` where `v` is
the number represented so far: the little-endian digit expansion of `v`, with
the initial single `0` as the representation of zero. -/

/-- The canonical state of the converter's vector for value `v`. -/
def canon (β v : ℕ) : List ℕ := if v = 0 then [0] else Nat.digits β v


/-! ## Big-endian values -/

/-- The number denoted by a big-endian digit string in radix `m` (the
multiply-accumulate the converter's outer loop performs). -/
def beVal (m : ℕ) (l : List ℕ) : ℕ := l.foldl (fun a c => m * a + c) 0


/-- The source's `Base64url` alphabet: only the 62 alphanumeric bytes; the
URL-safe characters `-` (45) and `_` (95) are absent from the source
literal. -/
def base64urlAlphabet : List ℕ :=
  [65, 66, 67, 68, 69, 70, 71, 72, 73, 74, 75, 76, 77,
   78, 79, 80, 81, 82, 83, 84, 85, 86, 87, 88, 89, 90,
   97, 98, 99, 100, 101, 102, 103, 104, 105, 106, 107, 108, 109,
   110, 111, 112, 113, 114, 115, 116, 117, 118, 119, 120, 121, 122,
   48, 49, 50, 51, 52, 53, 54, 55, 56, 57]


/-! Sanity checks against the test suites of the repository
(`src/base.rs` tests and `tests/lib.rs`). -/

example : bencode [48, 49] [0x00, 0x0f] = some [48, 49, 49, 49, 49] := by decide
example : bencode [48, 49] [0x00, 0xff] = some [48, 49, 49, 49, 49, 49, 49, 49, 49] := by decide
example : bencode [48, 49] [0x0f, 0xff] = some [49, 49, 49, 49, 49, 49, 49, 49, 49, 49, 49, 49] := by decide
example : bdecode [48, 49] [48, 49, 49, 49, 49] = some [0x00, 0x0f] := by decide
example : pubDecode [76, 108, 108, 108, 108] = Except.error Error.UnkownBase := by decide
example : pubDecode [85, 108, 108, 108, 108] = Except.error Error.UnsupportedBase := by decide

-- `tests/lib.rs` encode vectors for b"yes mani !" (ASCII byte values).
example : pubEncode Base.Base8 [121, 101, 115, 32, 109, 97, 110, 105, 32, 33] =
    some (Except.ok [55, 49, 55, 49, 51, 49, 50, 55, 49, 52, 52, 48, 51, 51, 50,
                     54, 48, 53, 53, 54, 51, 50, 50, 50, 48, 48, 52, 49]) := by decide
example : pubEncode Base.Base10 [121, 101, 115, 32, 109, 97, 110, 105, 32, 33] =
    some (Except.ok [57, 53, 55, 51, 50, 55, 55, 55, 54, 49, 51, 50, 57, 52, 53,
                     48, 53, 56, 51, 54, 54, 50, 54, 50, 53]) := by decide
example : pubEncode Base.Base16 [121, 101, 115, 32, 109, 97, 110, 105, 32, 33] =
    some (Except.ok [102, 55, 57, 54, 53, 55, 51, 50, 48, 54, 100, 54, 49, 54,
                     101, 54, 57, 50, 48, 50, 49]) := by decide
example : pubEncode Base.Base32hex [121, 101, 115, 32, 109, 97, 110, 105, 32, 33] =
    some (Except.ok [118, 102, 53, 105, 110, 54, 56, 51, 100, 99, 53, 110, 54,
                     105, 56, 49, 49]) := by decide
example : pubEncode Base.Base32 [121, 101, 115, 32, 109, 97, 110, 105, 32, 33] =
    some (Except.ok [98, 112, 102, 115, 120, 103, 105, 100, 110, 109, 102, 120,
                     103, 115, 105, 98, 98]) := by decide
example : pubEncode Base.Base32z [121, 101, 115, 32, 109, 97, 110, 105, 32, 33] =
    some (Except.ok [104, 120, 102, 49, 122, 103, 101, 100, 112, 99, 102, 122,
                     103, 49, 101, 98, 98]) := by decide
example : pubEncode Base.Base58flickr [121, 101, 115, 32, 109, 97, 110, 105, 32, 33] =
    some (Except.ok [90, 55, 80, 122, 110, 107, 49, 57, 88, 84, 84, 122, 66,
                     116, 120]) := by decide
example : pubEncode Base.Base58btc [121, 101, 115, 32, 109, 97, 110, 105, 32, 33] =
    some (Except.ok [122, 55, 112, 97, 78, 76, 49, 57, 120, 116, 116, 97, 99,
                     85, 89]) := by decide

/-! ## Registry lemmas -/

theorem fromCode_code : ∀ b : Base, Base.fromCode b.code = Except.ok b := by decide

theorem alphabet_ne_unkown : ∀ b : Base, b.alphabet ≠ Except.error Error.UnkownBase := by
  decide

/-- Every alphabet the registry returns is duplicate-free, nonempty, has at
most 255 symbols and consists of bytes. -/
theorem alphabet_facts : ∀ (b : Base) (a : List ℕ), b.alphabet = Except.ok a →
    a.Nodup ∧ 1 ≤ a.length ∧ a.length ≤ 255 ∧ ∀ x ∈ a, x < 256 := by
  intro b a h
  cases b <;>
    first
      | exact Except.noConfusion h
      | (injection h with h2; subst h2; decide)

/-- Codes of distinct variants are distinct. -/
theorem code_injective : ∀ b1 b2 : Base, b1.code = b2.code → b1 = b2 := by decide

/-- Alphabet contents of distinct variants are distinct (decidable core). -/
theorem alphabet_toOption_injective : ∀ b1 b2 : Base, b1 ≠ b2 →
    b1.alphabet.toOption = b2.alphabet.toOption → b1.alphabet.toOption = none := by
  decide

/-! ## The carry-pushing loop -/

/-- For a radix of at least 2, fuel equal to the carry is enough, and the loop
pushes exactly the little-endian digit expansion of the carry. -/
theorem drainFuel_sufficient {β : ℕ} (hβ : 2 ≤ β) :
    ∀ fuel c, c ≤ fuel → drainFuel β fuel c = some (Nat.digits β c) := by
  intro fuel
  induction fuel with
  | zero =>
      intro c hc
      obtain rfl : c = 0 := Nat.le_zero.mp hc
      simp [drainFuel]
  | succ f ih =>
      intro c hc
      match c with
      | 0 => simp [drainFuel]
      | k + 1 =>
          have hdiv : (k + 1) / β ≤ f := by
            have h1 : (k + 1) / β ≤ (k + 1) / 2 := Nat.div_le_div_left hβ (by omega)
            omega
          have hrec := ih ((k + 1) / β) hdiv
          have hdig := Nat.digits_def' (by omega : 1 < β) (Nat.succ_pos k)
          simp [drainFuel, hrec, hdig]

theorem drain_eq {β : ℕ} (hβ : 2 ≤ β) (c : ℕ) : drain β c = some (Nat.digits β c) :=
  drainFuel_sufficient hβ c c le_rfl

/-- With radix 1 (alphabet `b"1"`, i.e. `Base1`) the loop makes no progress:
`carry /= 1` leaves the carry unchanged, so no amount of fuel reaches
`carry = 0`.  This is the nonterminating `while` loop of the source. -/
theorem drainFuel_base_one : ∀ fuel c, c ≠ 0 → drainFuel 1 fuel c = none := by
  intro fuel
  induction fuel with
  | zero =>
      intro c hc
      match c with
      | k + 1 => simp [drainFuel]
  | succ f ih =>
      intro c hc
      match c with
      | k + 1 =>
          have : (k + 1) / 1 = k + 1 := Nat.div_one _
          simp [drainFuel, this, ih (k + 1) (Nat.succ_ne_zero k)]

/-! ## The carry pass -/

theorem propagate_length (β m : ℕ) : ∀ (carry : ℕ) (ds : List ℕ),
    (propagate β m carry ds).1.length = ds.length := by
  intro carry ds
  induction ds generalizing carry with
  | nil => rfl
  | cons d ds ih => simp [propagate, ih]

/-- Value identity of the carry pass: the new vector plus the outgoing carry
in the top position represent `carry + m * (old value)` in radix `β`. -/
theorem propagate_val (β m : ℕ) : ∀ (carry : ℕ) (ds : List ℕ),
    Nat.ofDigits β (propagate β m carry ds).1
      + (propagate β m carry ds).2 * β ^ ds.length
      = carry + m * Nat.ofDigits β ds := by
  intro carry ds
  induction ds generalizing carry with
  | nil => simp [propagate, Nat.ofDigits_nil]
  | cons d ds ih =>
      have ih2 := ih ((carry + d * m) / β)
      have hdm := Nat.div_add_mod (carry + d * m) β
      simp only [propagate, Nat.ofDigits_cons, List.length_cons, Nat.cast_id] at ih2 ⊢
      calc (carry + d * m) % β
            + β * Nat.ofDigits β (propagate β m ((carry + d * m) / β) ds).1
            + (propagate β m ((carry + d * m) / β) ds).2 * β ^ (ds.length + 1)
          = (carry + d * m) % β
            + β * (Nat.ofDigits β (propagate β m ((carry + d * m) / β) ds).1
                   + (propagate β m ((carry + d * m) / β) ds).2 * β ^ ds.length) := by
            ring
        _ = (carry + d * m) % β
            + β * ((carry + d * m) / β + m * Nat.ofDigits β ds) := by rw [ih2]
        _ = (β * ((carry + d * m) / β) + (carry + d * m) % β)
            + m * (β * Nat.ofDigits β ds) := by ring
        _ = (carry + d * m) + m * (β * Nat.ofDigits β ds) := by rw [hdm]
        _ = carry + m * (d + β * Nat.ofDigits β ds) := by ring

theorem propagate_lt {β : ℕ} (hβ : 0 < β) (m : ℕ) : ∀ (carry : ℕ) (ds : List ℕ),
    ∀ x ∈ (propagate β m carry ds).1, x < β := by
  intro carry ds
  induction ds generalizing carry with
  | nil => intro x hx; simp [propagate] at hx
  | cons d ds ih =>
      intro x hx
      simp only [propagate, List.mem_cons] at hx
      rcases hx with h | h
      · subst h; exact Nat.mod_lt _ hβ
      · exact ih _ x h

/-- Unfolding equation for one layer of the carry pass. -/
theorem propagate_cons (β m carry d : ℕ) (ds : List ℕ) :
    propagate β m carry (d :: ds) =
      ((carry + d * m) % β :: (propagate β m ((carry + d * m) / β) ds).1,
       (propagate β m ((carry + d * m) / β) ds).2) := rfl

/-- If the old vector's top digit is nonzero and the carry pass produced no
outgoing carry, the new vector's top digit is nonzero as well. -/
theorem propagate_getLast {β m : ℕ} (hβ : 0 < β) (hm : 1 ≤ m) : ∀ (carry : ℕ) (ds : List ℕ),
    ds.getLast? ≠ some 0 → ds ≠ [] → (propagate β m carry ds).2 = 0 →
    (propagate β m carry ds).1.getLast? ≠ some 0 := by
  intro carry ds
  induction ds generalizing carry with
  | nil => intro _ hne; exact absurd rfl hne
  | cons d ds ih =>
      intro hlast _ hcarry
      cases ds with
      | nil =>
          rw [propagate_cons] at hcarry ⊢
          simp only [propagate] at hcarry ⊢
          have hd : d ≠ 0 := by
            intro h
            exact hlast (by simp [h])
          have ht : carry + d * m < β := (Nat.div_eq_zero_iff hβ).mp hcarry
          have hpos : 0 < d * m := Nat.mul_pos (Nat.pos_of_ne_zero hd) hm
          rw [Nat.mod_eq_of_lt ht]
          intro hcontra
          have h0 : carry + d * m = 0 := by simpa using hcontra
          omega
      | cons e rest =>
          rw [propagate_cons] at hcarry ⊢
          have hlast2 : (e :: rest).getLast? ≠ some 0 := by
            rwa [List.getLast?_cons_cons] at hlast
          have hres := ih ((carry + d * m) / β) hlast2 (by simp) hcarry
          have hne : (propagate β m ((carry + d * m) / β) (e :: rest)).1 ≠ [] := by
            have hl := propagate_length β m ((carry + d * m) / β) (e :: rest)
            intro h
            rw [h] at hl
            simp at hl
          obtain ⟨y, ys, hys⟩ := List.exists_cons_of_ne_nil hne
          rw [hys] at hres ⊢
          rw [List.getLast?_cons_cons]
          exact hres

theorem canon_zero (β : ℕ) : canon β 0 = [0] := by simp [canon]

theorem canon_ne_nil (β v : ℕ) : canon β v ≠ [] := by
  unfold canon
  split
  · simp
  · exact Nat.digits_ne_nil_iff_ne_zero.mpr (by assumption)

theorem canon_val (β v : ℕ) : Nat.ofDigits β (canon β v) = v := by
  unfold canon
  split
  · simp_all [Nat.ofDigits]
  · exact Nat.ofDigits_digits β v

theorem canon_lt {β : ℕ} (hβ : 2 ≤ β) (v : ℕ) : ∀ d ∈ canon β v, d < β := by
  unfold canon
  split
  · intro d hd
    simp only [List.mem_singleton] at hd
    omega
  · intro d hd
    exact Nat.digits_lt_base (by omega) hd

theorem canon_getLast {β : ℕ} {v : ℕ} (hv : v ≠ 0) :
    (canon β v).getLast? ≠ some 0 := by
  unfold canon
  rw [if_neg hv]
  have hne : Nat.digits β v ≠ [] := Nat.digits_ne_nil_iff_ne_zero.mpr hv
  rw [List.getLast?_eq_getLast_of_ne_nil hne]
  intro hcontra
  exact Nat.getLast_digit_ne_zero β hv (Option.some.inj hcontra)

/-- One converter step preserves canonicity: starting from the canonical
vector for `v` and absorbing the input unit `c`, the step succeeds and yields
the canonical vector for `m * v + c`. -/
theorem stepConv_canon {β m : ℕ} (hβ : 2 ≤ β) (hm : 1 ≤ m) (v c : ℕ) :
    stepConv β m (canon β v) c = some (canon β (m * v + c)) := by
  unfold stepConv
  rw [drain_eq hβ]
  simp only [Option.map_some']
  congr 1
  by_cases hw : m * v + c = 0
  · have hv : v = 0 := by
      rcases Nat.eq_zero_of_add_eq_zero_right hw with h
      rcases Nat.mul_eq_zero.mp h with h | h
      · omega
      · exact h
    have hc : c = 0 := Nat.eq_zero_of_add_eq_zero_left hw
    subst hv; subst hc
    rw [canon_zero]
    simp [propagate, canon, Nat.zero_mod, Nat.zero_div, Nat.digits_zero]
  · -- the combined vector is the canonical digit string of `m * v + c`
    have hval := propagate_val β m c (canon β v)
    rw [canon_val] at hval
    have hlen := propagate_length β m c (canon β v)
    set p := propagate β m c (canon β v) with hp
    have hval2 : Nat.ofDigits β p.1 + β ^ (canon β v).length * p.2 = c + m * v := by
      rw [Nat.mul_comm]
      exact hval
    have hofr : Nat.ofDigits β (p.1 ++ Nat.digits β p.2) = m * v + c := by
      rw [Nat.ofDigits_append, Nat.ofDigits_digits, hlen]
      omega
    have hbound : ∀ x ∈ p.1 ++ Nat.digits β p.2, x < β := by
      intro x hx
      rcases List.mem_append.mp hx with h | h
      · exact propagate_lt (by omega) m c (canon β v) x h
      · exact Nat.digits_lt_base (by omega) h
    have hlast : ∀ h : p.1 ++ Nat.digits β p.2 ≠ [],
        (p.1 ++ Nat.digits β p.2).getLast h ≠ 0 := by
      intro hne
      by_cases hc2 : p.2 = 0
      · have hdig : Nat.digits β p.2 = [] := by rw [hc2]; exact Nat.digits_zero β
        have hq : p.1.getLast? ≠ some 0 := by
          by_cases hv : v = 0
          · -- vector was `[0]`; no outgoing carry means the single new digit is `c`
            subst hv
            rw [canon_zero] at hp
            have hc2' : c / β = 0 := by
              have : p.2 = c / β := by rw [hp]; simp [propagate]
              omega
            have hclt : c < β := (Nat.div_eq_zero_iff (by omega)).mp hc2'
            have hp1 : p.1 = [c % β] := by rw [hp]; simp [propagate]
            rw [hp1, Nat.mod_eq_of_lt hclt]
            intro hcontra
            have h0 : c = 0 := by simpa using hcontra
            exact hw (by simp [h0])
          · exact propagate_getLast (by omega) hm c (canon β v) (canon_getLast hv)
              (canon_ne_nil β v) hc2
        intro hcontra
        have hsome : (p.1 ++ Nat.digits β p.2).getLast? = some 0 := by
          rw [List.getLast?_eq_getLast_of_ne_nil hne, hcontra]
        rw [hdig, List.append_nil] at hsome
        exact hq hsome
      · have hdne : Nat.digits β p.2 ≠ [] := Nat.digits_ne_nil_iff_ne_zero.mpr hc2
        intro hcontra
        have h1 : (p.1 ++ Nat.digits β p.2).getLast? = some 0 := by
          rw [List.getLast?_eq_getLast_of_ne_nil hne, hcontra]
        rw [List.getLast?_append_of_ne_nil p.1 hdne,
            List.getLast?_eq_getLast_of_ne_nil hdne] at h1
        exact Nat.getLast_digit_ne_zero β hc2 (Option.some.inj h1)
    have huniq := Nat.digits_ofDigits β (by omega) (p.1 ++ Nat.digits β p.2) hbound hlast
    rw [hofr] at huniq
    rw [canon, if_neg hw, huniq]

/-- Iterating the converter's outer loop from the canonical state for `v`
yields the canonical state of the multiply-accumulate of the inputs. -/
theorem convLoop_canon {β m : ℕ} (hβ : 2 ≤ β) (hm : 1 ≤ m) :
    ∀ (cs : List ℕ) (v : ℕ),
      convLoop β m (canon β v) cs
        = some (canon β (cs.foldl (fun a c => m * a + c) v)) := by
  intro cs
  induction cs with
  | nil => intro v; rfl
  | cons c cs ih =>
      intro v
      simp only [convLoop, stepConv_canon hβ hm v c, List.foldl_cons]
      exact ih (m * v + c)

theorem beVal_aux (m : ℕ) : ∀ (cs : List ℕ) (v : ℕ),
    cs.foldl (fun a c => m * a + c) v = v * m ^ cs.length + beVal m cs := by
  intro cs
  induction cs with
  | nil => intro v; simp [beVal]
  | cons c cs ih =>
      intro v
      have h1 : (c :: cs).foldl (fun a c => m * a + c) v
          = cs.foldl (fun a c => m * a + c) (m * v + c) := rfl
      have h2 : beVal m (c :: cs) = cs.foldl (fun a c => m * a + c) c := by
        simp [beVal]
      rw [h1, ih (m * v + c), h2, ih c, List.length_cons]
      ring

theorem beVal_cons (m c : ℕ) (cs : List ℕ) :
    beVal m (c :: cs) = c * m ^ cs.length + beVal m cs := by
  have h2 : beVal m (c :: cs) = cs.foldl (fun a c => m * a + c) c := by simp [beVal]
  rw [h2, beVal_aux m cs c]

/-- A little-endian reading of the reversed list is the big-endian value. -/
theorem ofDigits_reverse (m : ℕ) : ∀ l : List ℕ,
    Nat.ofDigits m l.reverse = beVal m l := by
  intro l
  induction l with
  | nil => simp [beVal]
  | cons c cs ih =>
      rw [List.reverse_cons, Nat.ofDigits_append, ih, Nat.ofDigits_singleton,
          List.length_reverse, beVal_cons]
      ring

theorem beVal_replicate_zero_append (m : ℕ) : ∀ (k : ℕ) (l : List ℕ),
    beVal m (List.replicate k 0 ++ l) = beVal m l := by
  intro k
  induction k with
  | zero => intro l; rfl
  | succ n ih =>
      intro l
      have : beVal m (0 :: (List.replicate n 0 ++ l)) = beVal m (List.replicate n 0 ++ l) := by
        simp [beVal]
      simpa [List.replicate_succ] using this.trans (ih l)

/-- A big-endian string of digits below the radix denoting zero is all
zeros. -/
theorem beVal_zero_all_zero (m : ℕ) : ∀ l : List ℕ, (∀ d ∈ l, d < m) →
    beVal m l = 0 → l = List.replicate l.length 0 := by
  intro l
  induction l with
  | nil => intro _ _; rfl
  | cons c cs ih =>
      intro hlt h0
      rw [beVal_cons] at h0
      have hm : 0 < m := lt_of_le_of_lt (Nat.zero_le c) (hlt c (List.mem_cons_self c cs))
      have hpow : 0 < m ^ cs.length := pow_pos hm _
      have hc : c = 0 := by
        have h1 : c * m ^ cs.length = 0 := Nat.eq_zero_of_add_eq_zero_right h0
        rcases Nat.mul_eq_zero.mp h1 with h | h
        · exact h
        · omega
      have hcs : beVal m cs = 0 := Nat.eq_zero_of_add_eq_zero_left h0
      subst hc
      rw [List.length_cons, List.replicate_succ]
      exact congrArg (List.cons 0) (ih (fun d hd => hlt d (List.mem_cons_of_mem 0 hd)) hcs)

/-! ## The alphabet-lookup table -/

theorem mapLookupGo_not_mem {c : ℕ} : ∀ (l : List ℕ) (i acc : ℕ), c ∉ l →
    mapLookupGo c i acc l = acc := by
  intro l
  induction l with
  | nil => intro i acc _; rfl
  | cons a rest ih =>
      intro i acc hc
      have ha : ¬a = c := fun h => hc (by rw [← h]; exact List.mem_cons_self a rest)
      simp only [mapLookupGo, if_neg ha]
      exact ih (i + 1) acc (fun h => hc (List.mem_cons_of_mem a h))

/-- A member byte resolves to some written index (truncated to `u8`). -/
theorem mapLookupGo_mem {c : ℕ} : ∀ (l : List ℕ) (i acc : ℕ), c ∈ l →
    ∃ k < l.length, mapLookupGo c i acc l = (i + k) % 256 := by
  intro l
  induction l with
  | nil => intro _ _ h; exact absurd h (List.not_mem_nil c)
  | cons a rest ih =>
      intro i acc hc
      by_cases hr : c ∈ rest
      · obtain ⟨k, hk, hgo⟩ := ih (i + 1) (if a = c then i % 256 else acc) hr
        exact ⟨k + 1, by simpa using Nat.succ_lt_succ hk, by
          simp only [mapLookupGo]
          rw [hgo]
          congr 1
          omega⟩
      · have ha : a = c := by
          rcases List.mem_cons.mp hc with h | h
          · exact h.symm
          · exact absurd h hr
        refine ⟨0, by simp, ?_⟩
        simp only [mapLookupGo, if_pos ha, Nat.add_zero]
        exact mapLookupGo_not_mem rest (i + 1) (i % 256) hr

/-- With no duplicates the table resolves a symbol to its exact position. -/
theorem mapLookupGo_get {c : ℕ} : ∀ (l : List ℕ) (i acc : ℕ), l.Nodup →
    ∀ (k : ℕ) (hk : k < l.length), l.get ⟨k, hk⟩ = c →
    mapLookupGo c i acc l = (i + k) % 256 := by
  intro l
  induction l with
  | nil => intro i acc _ k hk; exact absurd hk (by simp)
  | cons a rest ih =>
      intro i acc hnd k hk hget
      have hand := List.nodup_cons.mp hnd
      match k with
      | 0 =>
          have ha : a = c := hget
          have hr : c ∉ rest := by rw [← ha]; exact hand.1
          simp only [mapLookupGo, if_pos ha, Nat.add_zero]
          exact mapLookupGo_not_mem rest (i + 1) (i % 256) hr
      | k + 1 =>
          have hget' : rest.get ⟨k, Nat.lt_of_succ_lt_succ hk⟩ = c := hget
          have ha : ¬a = c := by
            intro h
            apply hand.1
            rw [h, ← hget']
            exact List.get_mem rest k (Nat.lt_of_succ_lt_succ hk)
          simp only [mapLookupGo, if_neg ha]
          rw [ih (i + 1) acc hand.2 k (Nat.lt_of_succ_lt_succ hk) hget']
          congr 1
          omega

theorem mapLookup_get {alphabet : List ℕ} (hnd : alphabet.Nodup)
    (h255 : alphabet.length ≤ 255) (k : ℕ) (hk : k < alphabet.length) :
    mapLookup alphabet (alphabet.get ⟨k, hk⟩) = k := by
  rw [mapLookup, mapLookupGo_get alphabet 0 255 hnd k hk rfl, Nat.zero_add]
  exact Nat.mod_eq_of_lt (by omega)

theorem mapLookup_not_mem {alphabet : List ℕ} {c : ℕ} (h : c ∉ alphabet) :
    mapLookup alphabet c = 255 :=
  mapLookupGo_not_mem alphabet 0 255 h

/-- The sentinel value 255 is hit exactly by the non-members, as long as the
alphabet has at most 255 entries (every real index is then below 255). -/
theorem mapLookup_eq_255_iff {alphabet : List ℕ} (h255 : alphabet.length ≤ 255)
    (c : ℕ) : mapLookup alphabet c = 255 ↔ c ∉ alphabet := by
  constructor
  · intro h
    intro hc
    obtain ⟨k, hk, hgo⟩ := mapLookupGo_mem alphabet 0 255 hc
    rw [mapLookup] at h
    rw [hgo, Nat.zero_add, Nat.mod_eq_of_lt (by omega)] at h
    omega
  · exact mapLookup_not_mem

/-! ## The decode loop -/

/-- The radix-256 drain always succeeds: decoding never hangs. -/
theorem stepConv256_some (m : ℕ) (state : List ℕ) (c : ℕ) :
    stepConv 256 m state c
      = some ((propagate 256 m c state).1
              ++ Nat.digits 256 (propagate 256 m c state).2) := by
  rw [stepConv, drain_eq (by omega)]
  rfl

/-- On a symbol string drawn from the alphabet the decode loop is the plain
converter loop on the symbol positions. -/
theorem decLoop_eq_convLoop {alphabet : List ℕ} (hnd : alphabet.Nodup)
    (h255 : alphabet.length ≤ 255) :
    ∀ (ds : List ℕ) (state : List ℕ), (∀ d ∈ ds, d < alphabet.length) →
      decLoop alphabet state (ds.map (fun d => alphabet.getD d 0))
        = convLoop 256 alphabet.length state ds := by
  intro ds
  induction ds with
  | nil => intro state _; rfl
  | cons d ds ih =>
      intro state hlt
      have hd : d < alphabet.length := hlt d (List.mem_cons_self d ds)
      have hgetD : alphabet.getD d 0 = alphabet.get ⟨d, hd⟩ := List.getD_eq_get alphabet 0 hd
      have hml : mapLookup alphabet (alphabet.getD d 0) = d := by
        rw [hgetD]
        exact mapLookup_get hnd h255 d hd
      have hne : ¬d = 255 := by omega
      simp only [List.map_cons, decLoop, hml, if_neg hne, stepConv256_some, convLoop]
      exact ih _ (fun x hx => hlt x (List.mem_cons_of_mem d hx))

/-- The decode loop fails exactly when some input symbol is outside the
alphabet (for alphabets of at most 255 symbols). -/
theorem decLoop_none_iff {alphabet : List ℕ} (h255 : alphabet.length ≤ 255) :
    ∀ (input : List ℕ) (state : List ℕ),
      (decLoop alphabet state input = none ↔ ∃ x ∈ input, x ∉ alphabet) := by
  intro input
  induction input with
  | nil => intro state; simp [decLoop]
  | cons c cs ih =>
      intro state
      by_cases hc : mapLookup alphabet c = 255
      · simp only [decLoop, if_pos hc]
        have hcm : c ∉ alphabet := (mapLookup_eq_255_iff h255 c).mp hc
        simp only [List.mem_cons]
        exact ⟨fun _ => ⟨c, Or.inl rfl, hcm⟩, fun _ => trivial⟩
      · have hcm : c ∈ alphabet := by
          by_contra hcontra
          exact hc (mapLookup_not_mem hcontra)
        simp only [decLoop, if_neg hc]
        rw [stepConv256_some]
        constructor
        · intro h
          obtain ⟨x, hx, hxa⟩ := (ih _).mp h
          exact ⟨x, List.mem_cons_of_mem c hx, hxa⟩
        · intro ⟨x, hx, hxa⟩
          rcases List.mem_cons.mp hx with h | h
          · exact absurd hcm (h ▸ hxa)
          · exact (ih _).mpr ⟨x, h, hxa⟩

/-- `base::decode` fails exactly on inputs containing a non-alphabet byte
(for the registry's alphabets: nonempty, at most 255 symbols). -/
theorem bdecode_none_iff {alphabet : List ℕ} (hne : alphabet ≠ [])
    (h255 : alphabet.length ≤ 255) (input : List ℕ) :
    bdecode alphabet input = none ↔ ∃ x ∈ input, x ∉ alphabet := by
  by_cases hinput : input = []
  · subst hinput
    simp [bdecode]
  · obtain ⟨a, rest, ha⟩ := List.exists_cons_of_ne_nil hne
    rw [bdecode, if_neg hinput, ha, List.head?_cons]
    rw [Option.map_eq_none']
    rw [← ha]
    exact decLoop_none_iff h255 input [0]

/-! ## Leading-run counting -/

theorem leadersCount_nil (leader : ℕ) : leadersCount [] leader = 0 := rfl

/-- A list not starting with the leader has no counted leaders. -/
theorem leadersCount_head_ne (leader : ℕ) : ∀ (l : List ℕ),
    (∀ h, l.head? = some h → h ≠ leader) → leadersCount l leader = 0 := by
  intro l hhead
  match l with
  | [] => rfl
  | c :: rest =>
      have hc : ¬(c = leader) := hhead c rfl
      match rest with
      | [] => rfl
      | e :: rest' =>
          simp only [leadersCount, List.length_cons, Nat.add_sub_cancel, List.take_succ_cons,
            List.takeWhile_cons]
          rw [decide_eq_false hc]
          rfl

/-- Peeling one leader off the front (when something follows it). -/
theorem leadersCount_cons (leader : ℕ) (rest : List ℕ) (hne : rest ≠ []) :
    leadersCount (leader :: rest) leader = leadersCount rest leader + 1 := by
  obtain ⟨e, rest', he⟩ := List.exists_cons_of_ne_nil hne
  subst he
  simp only [leadersCount, List.length_cons, Nat.add_sub_cancel, List.take_succ_cons,
    List.takeWhile_cons]
  simp

/-- An all-leader list of length `n + 1` counts `n` leaders (the final
element is excluded from the scan). -/
theorem leadersCount_replicate (leader : ℕ) : ∀ n : ℕ,
    leadersCount (List.replicate (n + 1) leader) leader = n := by
  intro n
  induction n with
  | zero => rfl
  | succ k ih =>
      rw [List.replicate_succ, leadersCount_cons leader _ (by simp), ih]

/-- A leader-run followed by a block not starting with the leader counts
exactly the run. -/
theorem leadersCount_run (leader : ℕ) : ∀ (z : ℕ) (D : List ℕ), D ≠ [] →
    (∀ h, D.head? = some h → h ≠ leader) →
    leadersCount (List.replicate z leader ++ D) leader = z := by
  intro z
  induction z with
  | zero =>
      intro D _ hhead
      simpa using leadersCount_head_ne leader D hhead
  | succ k ih =>
      intro D hD hhead
      rw [List.replicate_succ, List.cons_append,
        leadersCount_cons leader _ (by simp [hD]), ih D hD hhead]

/-! ## Characterisation of `base::encode` -/

/-- For an alphabet of at least two symbols, `base::encode` terminates on any
nonempty input and produces the leader-run followed by the big-endian digit
string of the input's base-256 value. -/
theorem bencode_eq {alphabet : List ℕ} (hβ : 2 ≤ alphabet.length) (s : List ℕ)
    (hs : s ≠ []) :
    bencode alphabet s
      = some (List.replicate (leadersCount s 0) (alphabet.getD 0 0)
              ++ (canon alphabet.length (beVal 256 s)).reverse.map
                   (fun d => alphabet.getD d 0)) := by
  rw [bencode, if_neg hs]
  rw [show ([0] : List ℕ) = canon alphabet.length 0 from (canon_zero _).symm]
  rw [convLoop_canon hβ (by omega : (1:ℕ) ≤ 256) s 0]
  simp only [Option.map_some']
  congr 1
  rw [show s.foldl (fun a c => 256 * a + c) 0 = beVal 256 s from rfl]
  rw [List.reverse_append, List.reverse_replicate, List.map_append, List.map_replicate]

/-- Reconstruction: the leader-run count plus the canonical big-endian byte
string of the value recovers any nonempty byte string exactly. -/
theorem recon : ∀ (s : List ℕ), s ≠ [] → (∀ b ∈ s, b < 256) →
    List.replicate (leadersCount s 0) 0 ++ (canon 256 (beVal 256 s)).reverse = s := by
  intro s
  induction s with
  | nil => intro h; exact absurd rfl h
  | cons c rest ih =>
      intro _ hlt
      by_cases hc : c = 0
      · subst hc
        by_cases hrest : rest = []
        · subst hrest
          rfl
        · have hN : beVal 256 (0 :: rest) = beVal 256 rest := by
            have := beVal_replicate_zero_append 256 1 rest
            simpa using this
          have hz : leadersCount (0 :: rest) 0 = leadersCount rest 0 + 1 :=
            leadersCount_cons 0 rest hrest
          rw [hz, hN, List.replicate_succ, List.cons_append]
          rw [ih hrest (fun b hb => hlt b (List.mem_cons_of_mem 0 hb))]
      · have hz : leadersCount (c :: rest) 0 = 0 :=
          leadersCount_head_ne 0 (c :: rest) (by
            intro h hh
            rw [List.head?_cons] at hh
            rw [← Option.some.inj hh]
            exact hc)
        have hN : beVal 256 (c :: rest) ≠ 0 := by
          rw [beVal_cons]
          have : 0 < c := Nat.pos_of_ne_zero hc
          have hp : 0 < (256:ℕ) ^ rest.length := pow_pos (by omega) _
          positivity
        have hdig : Nat.digits 256 (beVal 256 (c :: rest)) = (c :: rest).reverse := by
          have hof : Nat.ofDigits 256 ((c :: rest).reverse) = beVal 256 (c :: rest) :=
            ofDigits_reverse 256 (c :: rest)
          rw [← hof]
          refine Nat.digits_ofDigits 256 (by omega) _ ?_ ?_
          · intro l hl
            exact hlt l (List.mem_reverse.mp hl)
          · intro hne
            intro hcontra
            have h1 : (c :: rest).reverse.getLast? = some 0 := by
              rw [List.getLast?_eq_getLast_of_ne_nil hne, hcontra]
            rw [List.getLast?_reverse] at h1
            rw [List.head?_cons] at h1
            exact hc (Option.some.inj h1)
        rw [hz, List.replicate_zero, List.nil_append, canon,
          if_neg hN, hdig, List.reverse_reverse]

/-- Core round-trip: for any duplicate-free alphabet of 2 to 255 symbols,
`base::decode` inverts `base::encode` on every byte string. -/
theorem core_roundtrip {alphabet : List ℕ} (hβ : 2 ≤ alphabet.length)
    (h255 : alphabet.length ≤ 255) (hnd : alphabet.Nodup) (s : List ℕ)
    (hs : ∀ b ∈ s, b < 256) :
    ∃ t, bencode alphabet s = some t ∧ bdecode alphabet t = some s := by
  by_cases hsnil : s = []
  · subst hsnil
    exact ⟨[], by simp [bencode], by simp [bdecode]⟩
  · have henc := bencode_eq hβ s hsnil
    set B := alphabet.length with hBdef
    set N := beVal 256 s with hNdef
    set z := leadersCount s 0 with hzdef
    set g : ℕ → ℕ := fun d => alphabet.getD d 0 with hgdef
    set D : List ℕ := (canon B N).reverse.map g with hD
    set t : List ℕ := List.replicate z (g 0) ++ D with ht
    refine ⟨t, henc, ?_⟩
    have hanil : alphabet ≠ [] := by
      intro h
      have h0 : alphabet.length = 0 := by rw [h]; rfl
      omega
    obtain ⟨a0, arest, ha⟩ := List.exists_cons_of_ne_nil hanil
    have hg0 : g 0 = a0 := by rw [hgdef, ha]; rfl
    have hhead : alphabet.head? = some (g 0) := by rw [ha, hg0]; rfl
    have hDnil : D ≠ [] := by
      rw [hD]
      intro h
      rw [List.map_eq_nil, List.reverse_eq_nil_iff] at h
      exact canon_ne_nil B N h
    have htnil : t ≠ [] := by
      intro h
      rw [ht] at h
      rcases List.append_eq_nil.mp h with ⟨_, h2⟩
      exact hDnil h2
    have hds : t = (List.replicate z 0 ++ (canon B N).reverse).map g := by
      rw [ht, List.map_append, List.map_replicate]
    have hdigitslt : ∀ d ∈ List.replicate z 0 ++ (canon B N).reverse, d < B := by
      intro d hd
      rcases List.mem_append.mp hd with h | h
      · have := List.eq_of_mem_replicate h
        omega
      · exact canon_lt hβ N d (List.mem_reverse.mp h)
    have hloop : decLoop alphabet [0] t
        = convLoop 256 B [0] (List.replicate z 0 ++ (canon B N).reverse) := by
      rw [hds]
      exact decLoop_eq_convLoop hnd h255 _ [0] hdigitslt
    have hM : beVal B (List.replicate z 0 ++ (canon B N).reverse) = N := by
      rw [beVal_replicate_zero_append]
      have h1 := ofDigits_reverse B ((canon B N).reverse)
      rw [List.reverse_reverse] at h1
      rw [← h1, canon_val]
    have hconv : convLoop 256 B [0] (List.replicate z 0 ++ (canon B N).reverse)
        = some (canon 256 N) := by
      rw [show ([0] : List ℕ) = canon 256 0 from (canon_zero _).symm]
      rw [convLoop_canon (by omega) (by omega) _ 0]
      congr 1
      exact congrArg (canon 256) hM
    simp only [bdecode, if_neg htnil, hhead]
    rw [hloop, hconv]
    simp only [Option.map_some', Option.some.injEq]
    by_cases hN0 : N = 0
    · -- all-zero input: the encoded text is all leaders
      have hcanon : canon B N = [0] := by rw [hN0, canon_zero]
      have hD1 : D = [g 0] := by rw [hD, hcanon]; rfl
      have ht2 : t = List.replicate (z + 1) (g 0) := by
        rw [ht, hD1, ← List.replicate_succ']
      have hz2 : leadersCount t (g 0) = z := by
        rw [ht2]
        exact leadersCount_replicate (g 0) z
      have hs0 : s = List.replicate s.length 0 :=
        beVal_zero_all_zero 256 s hs (by rw [← hNdef]; exact hN0)
      obtain ⟨n, hn⟩ : ∃ n, s.length = n + 1 := by
        refine ⟨s.length - 1, ?_⟩
        have : s.length ≠ 0 := fun h => hsnil (List.eq_nil_of_length_eq_zero h)
        omega
      have hzval : z = n := by
        rw [hzdef]
        conv_lhs => rw [hs0, hn]
        exact leadersCount_replicate 0 n
      rw [hz2, hN0, canon_zero]
      rw [show (([0] : List ℕ) ++ List.replicate z 0) = List.replicate (z + 1) 0 from rfl]
      rw [List.reverse_replicate, hzval, ← hn, ← hs0]
    · -- nonzero value: the first digit symbol differs from the leader
      have hcne : canon B N ≠ [] := canon_ne_nil B N
      have hlastc := canon_getLast (β := B) hN0
      obtain ⟨dl, hdl⟩ : ∃ dl, (canon B N).getLast? = some dl := by
        rw [List.getLast?_eq_getLast_of_ne_nil hcne]
        exact ⟨_, rfl⟩
      have hdl0 : dl ≠ 0 := fun h => hlastc (by rw [hdl, h])
      have hdlmem : dl ∈ canon B N := by
        obtain ⟨hh, hx⟩ := List.mem_getLast?_eq_getLast (show dl ∈ (canon B N).getLast? from hdl)
        rw [hx]
        exact List.getLast_mem hh
      have hdllt : dl < B := canon_lt hβ N dl hdlmem
      have hheadD : D.head? = some (g dl) := by
        rw [hD, List.head?_map, List.head?_reverse, hdl]
        rfl
      have hgne : g dl ≠ g 0 := by
        intro h
        have h0lt : 0 < B := by omega
        have e1 : g dl = alphabet.get ⟨dl, hdllt⟩ := List.getD_eq_get alphabet 0 hdllt
        have e2 : g 0 = alphabet.get ⟨0, h0lt⟩ := List.getD_eq_get alphabet 0 h0lt
        rw [e1, e2] at h
        have hfin := (List.Nodup.get_inj_iff hnd).mp h
        have : dl = 0 := by simpa using hfin
        exact hdl0 this
      have hz2 : leadersCount t (g 0) = z := by
        rw [ht]
        refine leadersCount_run (g 0) z D hDnil ?_
        intro h hh
        rw [hheadD] at hh
        rw [← Option.some.inj hh]
        exact hgne
      rw [hz2, List.reverse_append, List.reverse_replicate]
      rw [hzdef]
      exact recon s hsnil hs

/-! ## Further helper lemmas for the claims -/

/-- Absorbing a zero byte leaves the zero vector untouched (any radix). -/
theorem stepConv_zero (β m : ℕ) : stepConv β m [0] 0 = some [0] := by
  simp [stepConv, propagate, drain, drainFuel]

theorem convLoop_zeros (β m : ℕ) : ∀ n : ℕ,
    convLoop β m [0] (List.replicate n 0) = some [0] := by
  intro n
  induction n with
  | zero => rfl
  | succ k ih =>
      rw [List.replicate_succ]
      simp only [convLoop, stepConv_zero]
      exact ih

/-- `base::encode` on `N ≥ 1` zero bytes yields `N` leader symbols (this
holds for every nonempty alphabet, `Base1` included). -/
theorem bencode_zeros {a : List ℕ} (hne : a ≠ []) (n : ℕ) (hn : 1 ≤ n) :
    bencode a (List.replicate n 0) = some (List.replicate n (a.headD 0)) := by
  obtain ⟨k, hk⟩ : ∃ k, n = k + 1 := ⟨n - 1, by omega⟩
  subst hk
  obtain ⟨a0, arest, ha⟩ := List.exists_cons_of_ne_nil hne
  have hrepne : List.replicate (k + 1) (0:ℕ) ≠ [] := by simp
  rw [bencode, if_neg hrepne, convLoop_zeros]
  simp only [Option.map_some', Option.some.injEq]
  rw [show leadersCount (List.replicate (k + 1) 0) 0 = k from leadersCount_replicate 0 k]
  rw [show (([0] : List ℕ) ++ List.replicate k 0) = List.replicate (k + 1) 0 from rfl]
  rw [List.reverse_replicate, List.map_replicate]
  rw [ha]
  rfl

theorem decLoop_leaders {a : List ℕ} (hml : mapLookup a (a.headD 0) = 0) : ∀ n : ℕ,
    decLoop a [0] (List.replicate n (a.headD 0)) = some [0] := by
  intro n
  induction n with
  | zero => rfl
  | succ k ih =>
      rw [List.replicate_succ]
      simp only [decLoop, hml]
      rw [if_neg (by omega)]
      rw [show stepConv 256 a.length [0] 0 = some [0] from stepConv_zero 256 a.length]
      exact ih

/-- `base::decode` on `N ≥ 1` leader symbols yields `N` zero bytes. -/
theorem bdecode_leaders {a : List ℕ} (hnd : a.Nodup) (h1 : 1 ≤ a.length)
    (h255 : a.length ≤ 255) (n : ℕ) (hn : 1 ≤ n) :
    bdecode a (List.replicate n (a.headD 0)) = some (List.replicate n 0) := by
  obtain ⟨k, hk⟩ : ∃ k, n = k + 1 := ⟨n - 1, by omega⟩
  subst hk
  obtain ⟨a0, arest, ha⟩ := List.exists_cons_of_ne_nil
    (show a ≠ [] by intro h; rw [h] at h1; simp at h1)
  subst ha
  have hhead : (a0 :: arest).head? = some ((a0 :: arest).headD 0) := rfl
  have h0 : 0 < (a0 :: arest).length := by simp
  have hml : mapLookup (a0 :: arest) ((a0 :: arest).headD 0) = 0 :=
    mapLookup_get hnd h255 0 h0
  have hrepne : List.replicate (k + 1) ((a0 :: arest).headD 0) ≠ [] := by simp
  rw [bdecode, if_neg hrepne, hhead]
  simp only [decLoop_leaders hml, Option.map_some', Option.some.injEq]
  rw [leadersCount_replicate]
  rw [show (([0] : List ℕ) ++ List.replicate k 0) = List.replicate (k + 1) 0 from rfl]
  exact List.reverse_replicate _ _

/-- Every byte emitted by `base::encode` is an alphabet symbol (or the
out-of-range default 0, which can only arise for digits beyond the alphabet —
impossible in practice, but harmless for this bound). -/
theorem bencode_mem {a : List ℕ} : ∀ (s t : List ℕ), bencode a s = some t →
    ∀ x ∈ t, x ∈ a ∨ x = 0 := by
  intro s t h x hx
  rw [bencode] at h
  split at h
  · injection h with h2
    rw [← h2] at hx
    exact absurd hx (List.not_mem_nil x)
  · rcases Option.map_eq_some'.mp h with ⟨digits, _, hf⟩
    rw [← hf] at hx
    rcases List.mem_map.mp hx with ⟨d, _, hdx⟩
    by_cases hd : d < a.length
    · left
      rw [← hdx, List.getD_eq_get a 0 hd]
      exact List.get_mem a d hd
    · right
      rw [← hdx, List.getD_eq_default a 0 (by omega)]

set_option maxRecDepth 4096 in
/-- Case analysis of `Base::from_code` over the byte domain: a byte either
resolves to the variant carrying it as code, or fails with `UnkownBase`. -/
theorem fromCode_cases_byte : ∀ c < 256,
    Base.fromCode c = Except.error Error.UnkownBase ∨
    ∃ b : Base, Base.fromCode c = Except.ok b ∧ b.code = c := by decide

set_option maxRecDepth 4096 in
theorem fromCode_error_iff_byte : ∀ c < 256,
    (Base.fromCode c = Except.error Error.UnkownBase ↔ ∀ b : Base, b.code ≠ c) := by
  decide

/-! ## The claims -/

/-- C1 (amended): for every base variant whose alphabet has at least two
symbols — all variants except `Base1` and the padded ones — public decode
inverts public encode on every byte string, returning the variant and the
original bytes.  (As frozen the claim also covered `Base1`, where encode
does not terminate; see the counterexample.) -/
theorem claim1_roundtrip : ∀ (b : Base) (alphabet : List ℕ),
    b.alphabet = Except.ok alphabet → 2 ≤ alphabet.length →
    ∀ s : List ℕ, (∀ x ∈ s, x < 256) →
    ∃ t, pubEncode b s = some (Except.ok (b.code :: t)) ∧
      pubDecode (b.code :: t) = Except.ok (b, s) := by
  intro b alphabet hok h2 s hs
  obtain ⟨hnd, h1, h255, _⟩ := alphabet_facts b alphabet hok
  obtain ⟨t, henc, hdec⟩ := core_roundtrip h2 h255 hnd s hs
  refine ⟨t, ?_, ?_⟩
  · simp only [pubEncode, hok, henc, Option.map_some']
  · simp only [pubDecode, List.headD_cons, fromCode_code, hok, List.drop_succ_cons,
      List.drop_zero, hdec]

/-- C1 witness: the round trip at `Base2` on `[0x00, 0xff]`. -/
theorem claim1_roundtrip_witness : ∃ t,
    pubEncode Base.Base2 [0, 255] = some (Except.ok (Base.Base2.code :: t)) ∧
    pubDecode (Base.Base2.code :: t) = Except.ok (Base.Base2, [0, 255]) :=
  claim1_roundtrip Base.Base2 [48, 49] rfl (by decide) [0, 255] (by decide)

/-- C1 counterexample: `Base1`'s alphabet resolution succeeds, yet
`encode(Base1, [0x01])` never returns (the carry loop divides by 1), so the
round trip fails for it: there is no output to decode. -/
theorem claim1_roundtrip_cex :
    pubEncode Base.Base1 [1] = none ∧
    ¬ ∃ t, pubEncode Base.Base1 [1] = some (Except.ok t) ∧
        pubDecode t = Except.ok (Base.Base1, [1]) := by
  refine ⟨by decide, ?_⟩
  rintro ⟨t, h1, -⟩
  rw [show pubEncode Base.Base1 [1] = none from by decide] at h1
  exact Option.noConfusion h1

/-- C2: for every variant with a resolved alphabet (leader symbol = the
alphabet's position-0 byte) and every `N ≥ 1`, core encode maps `N` zero
bytes to exactly `N` leader symbols and core decode maps `N` leader symbols
back to exactly `N` zero bytes. -/
theorem claim2_leading_zeros : ∀ (b : Base) (a : List ℕ), b.alphabet = Except.ok a →
    ∀ n : ℕ, 1 ≤ n →
      bencode a (List.replicate n 0) = some (List.replicate n (a.headD 0)) ∧
      bdecode a (List.replicate n (a.headD 0)) = some (List.replicate n 0) := by
  intro b a hok n hn
  obtain ⟨hnd, h1, h255, _⟩ := alphabet_facts b a hok
  have hne : a ≠ [] := by intro h; rw [h] at h1; simp at h1
  exact ⟨bencode_zeros hne n hn, bdecode_leaders hnd h1 h255 n hn⟩

/-- C2 witness: three zero bytes in `Base2` become three `0` symbols and
back. -/
theorem claim2_leading_zeros_witness :
    bencode [48, 49] (List.replicate 3 0) = some (List.replicate 3 48) ∧
    bdecode [48, 49] (List.replicate 3 48) = some (List.replicate 3 0) :=
  claim2_leading_zeros Base.Base2 [48, 49] rfl 3 (by decide)

/-- C3: the literal scenarios, as byte values.
`encode(Base16, b"Decentralize everything!!")` is
`f446563656e7472616c697a652065766572797468696e672121`; the core base-2
encodings of `[0x00, 0x0f]` and `[0x00, 0xff]` are `01111` and `011111111`
(with the public `0` code byte in front in the full outputs); and
`encode(Base58btc, b"yes mani !")` is `z7paNL19xttacUY`, which decodes back
to `(Base58btc, b"yes mani !")`. -/
theorem claim3_literal_vectors :
    pubEncode Base.Base16
        [68, 101, 99, 101, 110, 116, 114, 97, 108, 105, 122, 101, 32, 101,
         118, 101, 114, 121, 116, 104, 105, 110, 103, 33, 33]
      = some (Except.ok
        [102, 52, 52, 54, 53, 54, 51, 54, 53, 54, 101, 55, 52, 55, 50, 54,
         49, 54, 99, 54, 57, 55, 97, 54, 53, 50, 48, 54, 53, 55, 54, 54, 53,
         55, 50, 55, 57, 55, 52, 54, 56, 54, 57, 54, 101, 54, 55, 50, 49,
         50, 49]) ∧
    bencode [48, 49] [0, 15] = some [48, 49, 49, 49, 49] ∧
    pubEncode Base.Base2 [0, 15] = some (Except.ok [48, 48, 49, 49, 49, 49]) ∧
    bencode [48, 49] [0, 255] = some [48, 49, 49, 49, 49, 49, 49, 49, 49] ∧
    pubEncode Base.Base2 [0, 255]
      = some (Except.ok [48, 48, 49, 49, 49, 49, 49, 49, 49, 49]) ∧
    pubEncode Base.Base58btc [121, 101, 115, 32, 109, 97, 110, 105, 32, 33]
      = some (Except.ok
        [122, 55, 112, 97, 78, 76, 49, 57, 120, 116, 116, 97, 99, 85, 89]) ∧
    pubDecode [122, 55, 112, 97, 78, 76, 49, 57, 120, 116, 116, 97, 99, 85, 89]
      = Except.ok (Base.Base58btc, [121, 101, 115, 32, 109, 97, 110, 105, 32, 33]) := by
  decide

/-- C4: the claim promises termination for every variant, but for `Base1`
(alphabet `b"1"`, base 1) the carry loop `while carry > 0 { push(carry %
base); carry /= base }` never reaches `carry = 0` from carry 1 — no step
budget suffices — and hence `encode(Base1, [0x01])` never returns. -/
theorem claim4_base1_divergence :
    (∀ fuel : ℕ, drainFuel 1 fuel 1 = none) ∧ pubEncode Base.Base1 [1] = none :=
  ⟨fun fuel => drainFuel_base_one fuel 1 one_ne_zero, by decide⟩

/-- C5 (amended): every resolved alphabet is duplicate-free and nonempty, and
all of them except `Base1`'s single-symbol alphabet have at least two
symbols; no two distinct variants resolve to equal alphabet contents.  (As
frozen the claim required at least two symbols of every alphabet, which
`Base1`'s `b"1"` violates; see the counterexample.) -/
theorem claim5_alphabet_invariants :
    (∀ (b : Base) (a : List ℕ), b.alphabet = Except.ok a →
      a.Nodup ∧ 1 ≤ a.length ∧ (b = Base.Base1 ∨ 2 ≤ a.length)) ∧
    (∀ (b1 b2 : Base) (a1 a2 : List ℕ), b1.alphabet = Except.ok a1 →
      b2.alphabet = Except.ok a2 → a1 = a2 → b1 = b2) := by
  constructor
  · intro b a h
    refine ⟨(alphabet_facts b a h).1, (alphabet_facts b a h).2.1, ?_⟩
    cases b <;>
      first
        | exact Or.inl rfl
        | exact Except.noConfusion h
        | (injection h with h2; subst h2; exact Or.inr (by decide))
  · intro b1 b2 a1 a2 h1 h2 heq
    by_contra hne
    have htop := alphabet_toOption_injective b1 b2 hne (by rw [h1, h2, heq])
    rw [h1] at htop
    exact Option.noConfusion htop

/-- C5 counterexample: `Base1` resolves to the one-symbol alphabet `b"1"`,
refuting the frozen bound `B ≥ 2`. -/
theorem claim5_alphabet_cex :
    Base.Base1.alphabet = Except.ok [49] ∧ ¬ 2 ≤ ([49] : List ℕ).length := by
  decide

/-- C5 witness: the invariants at `Base2`. -/
theorem claim5_alphabet_witness :
    (([48, 49] : List ℕ).Nodup ∧ 1 ≤ ([48, 49] : List ℕ).length ∧
      (Base.Base2 = Base.Base1 ∨ 2 ≤ ([48, 49] : List ℕ).length)) ∧
    Base.Base2 = Base.Base2 :=
  ⟨claim5_alphabet_invariants.1 Base.Base2 [48, 49] rfl,
   claim5_alphabet_invariants.2 Base.Base2 Base.Base2 [48, 49] [48, 49] rfl rfl rfl⟩

/-- C6: for a variant with resolved alphabet and an input led by its code
byte, public decode fails with `InvalidBaseString` exactly when some byte of
the remainder is not an alphabet symbol; in particular the base58btc string
with an injected `_` fails so. -/
theorem claim6_invalid_symbol :
    (∀ (b : Base) (a : List ℕ), b.alphabet = Except.ok a →
      ∀ rest : List ℕ, (∀ x ∈ rest, x < 256) →
      (pubDecode (b.code :: rest) = Except.error Error.InvalidBaseString ↔
        ∃ x ∈ rest, x ∉ a)) ∧
    pubDecode [122, 55, 112, 97, 95, 76, 49, 57, 120, 116, 116, 97, 99, 85, 89]
      = Except.error Error.InvalidBaseString := by
  constructor
  · intro b a hok rest _
    obtain ⟨_, h1, h255, _⟩ := alphabet_facts b a hok
    have hne : a ≠ [] := by intro h; rw [h] at h1; simp at h1
    simp only [pubDecode, List.headD_cons, fromCode_code, hok, List.drop_succ_cons,
      List.drop_zero]
    constructor
    · intro h
      by_contra hno
      push_neg at hno
      cases hbd : bdecode a rest with
      | none =>
          obtain ⟨x, hx, hxa⟩ := (bdecode_none_iff hne h255 rest).mp hbd
          exact hxa (hno x hx)
      | some d =>
          rw [hbd] at h
          exact Except.noConfusion h
    · intro hex
      rw [(bdecode_none_iff hne h255 rest).mpr hex]
  · decide

/-- C6 witness: decoding `z_` fails with `InvalidBaseString`. -/
theorem claim6_invalid_symbol_witness :
    pubDecode [122, 95] = Except.error Error.InvalidBaseString :=
  (claim6_invalid_symbol.1 Base.Base58btc _ rfl [95] (by decide)).mpr
    ⟨95, by decide, by decide⟩

/-- C7: each of the six padded variants (codes `t`,`T`,`c`,`C`,`M`,`U`) fails
with `UnsupportedBase` on public encode for every payload and on public
decode for every remainder after the code byte, the error arising at
alphabet resolution. -/
theorem claim7_unsupported_padded : ∀ b : Base,
    (b = Base.Base32hexpad ∨ b = Base.Base32hexpadUpper ∨ b = Base.Base32pad ∨
      b = Base.Base32padUpper ∨ b = Base.Base64pad ∨ b = Base.Base64urlpad) →
    ∀ data : List ℕ,
      pubEncode b data = some (Except.error Error.UnsupportedBase) ∧
      pubDecode (b.code :: data) = Except.error Error.UnsupportedBase := by
  rintro b (rfl | rfl | rfl | rfl | rfl | rfl) data <;> exact ⟨rfl, rfl⟩

/-- C7 witness: `Base32hexpad` (code `t` = 116) on a sample payload. -/
theorem claim7_unsupported_padded_witness :
    pubEncode Base.Base32hexpad [1, 2, 3] = some (Except.error Error.UnsupportedBase) ∧
    pubDecode [116, 1, 2, 3] = Except.error Error.UnsupportedBase :=
  claim7_unsupported_padded Base.Base32hexpad (Or.inl rfl) [1, 2, 3]

/-- C8: public decode fails with the source's `UnkownBase` (the spec's
`UnknownBase`) exactly when the first byte — byte value 0 for the empty
input — is no variant's code byte; in particular the empty input and
`"Lllll"` fail so. -/
theorem claim8_unknown_code :
    (∀ data : List ℕ, (∀ x ∈ data, x < 256) →
      (pubDecode data = Except.error Error.UnkownBase ↔
        ∀ b : Base, b.code ≠ data.headD 0)) ∧
    pubDecode [] = Except.error Error.UnkownBase ∧
    pubDecode [76, 108, 108, 108, 108] = Except.error Error.UnkownBase := by
  refine ⟨?_, by decide, by decide⟩
  intro data hdata
  have hc : data.headD 0 < 256 := by
    cases data with
    | nil => simp
    | cons a l => exact hdata a (List.mem_cons_self a l)
  constructor
  · intro h
    rcases fromCode_cases_byte (data.headD 0) hc with herr | ⟨b', hb', hcode⟩
    · exact (fromCode_error_iff_byte (data.headD 0) hc).mp herr
    · exfalso
      simp only [pubDecode, hb'] at h
      cases halph : b'.alphabet with
      | error e =>
          simp only [halph] at h
          injection h with h2
          exact alphabet_ne_unkown b' (by rw [halph, h2])
      | ok alph =>
          simp only [halph] at h
          cases hbd : bdecode alph (data.drop 1) with
          | none =>
              simp only [hbd] at h
              exact absurd h (by decide)
          | some d =>
              simp only [hbd] at h
              exact Except.noConfusion h
  · intro hall
    have herr := (fromCode_error_iff_byte (data.headD 0) hc).mpr hall
    simp only [pubDecode, herr]

/-- C8 witness: the unregistered code byte 59 fails with `UnkownBase`. -/
theorem claim8_unknown_code_witness :
    pubDecode [59] = Except.error Error.UnkownBase :=
  (claim8_unknown_code.1 [59] (by decide)).mpr (by decide)

/-- C9 (amended): for every variant with a resolved alphabet, the core
encode of the empty byte sequence is the empty buffer, while the public
encode returns exactly the one-byte code prefix (the public layer prepends
the code byte, so its result is never empty).  (As frozen the claim asserted
the public result is empty; see the counterexample.) -/
theorem claim9_empty_input : ∀ (b : Base) (a : List ℕ), b.alphabet = Except.ok a →
    bencode a [] = some [] ∧ pubEncode b [] = some (Except.ok [b.code]) := by
  intro b a hok
  refine ⟨rfl, ?_⟩
  simp only [pubEncode, hok]
  rfl

/-- C9 counterexample: public `encode(Base2, [])` is the code byte `[48]`,
not the empty buffer. -/
theorem claim9_empty_input_cex :
    pubEncode Base.Base2 [] = some (Except.ok [48]) ∧
    pubEncode Base.Base2 [] ≠ some (Except.ok ([] : List ℕ)) := by
  decide

/-- C9 witness: the amended statement at `Base2`. -/
theorem claim9_empty_input_witness :
    bencode [48, 49] [] = some [] ∧ pubEncode Base.Base2 [] = some (Except.ok [48]) :=
  claim9_empty_input Base.Base2 [48, 49] rfl

set_option maxRecDepth 8192 in
/-- C10: the `Base64url` alphabet of the source is exactly the 62
alphanumeric bytes — `-` (45) and `_` (95) are absent — so public encode
never emits 45 or 95, and any `u`-led input containing 45 or 95 after the
code byte fails to decode with `InvalidBaseString`. -/
theorem claim10_base64url :
    Base.Base64url.alphabet = Except.ok base64urlAlphabet ∧
    base64urlAlphabet.length = 62 ∧
    (∀ c < 256, (c ∈ base64urlAlphabet ↔
      (65 ≤ c ∧ c ≤ 90) ∨ (97 ≤ c ∧ c ≤ 122) ∨ (48 ≤ c ∧ c ≤ 57))) ∧
    45 ∉ base64urlAlphabet ∧ 95 ∉ base64urlAlphabet ∧
    (∀ s out : List ℕ, pubEncode Base.Base64url s = some (Except.ok out) →
      45 ∉ out ∧ 95 ∉ out) ∧
    (∀ rest : List ℕ, (45 ∈ rest ∨ 95 ∈ rest) →
      pubDecode (117 :: rest) = Except.error Error.InvalidBaseString) := by
  refine ⟨rfl, by decide, by decide, by decide, by decide, ?_, ?_⟩
  · intro s out h
    simp only [pubEncode, Base.alphabet] at h
    rcases Option.map_eq_some'.mp h with ⟨t, hbt, hft⟩
    have hout : out = Base.Base64url.code :: t := by
      injection hft with h2
      exact h2.symm
    have hmem := bencode_mem s t hbt
    constructor <;> intro hbad <;> rw [hout] at hbad <;>
      rcases List.mem_cons.mp hbad with h45 | h45
    · exact absurd h45 (by decide)
    · rcases hmem 45 h45 with hin | h0
      · exact absurd hin (by decide)
      · exact absurd h0 (by decide)
    · exact absurd h45 (by decide)
    · rcases hmem 95 h45 with hin | h0
      · exact absurd hin (by decide)
      · exact absurd h0 (by decide)
  · intro rest hor
    have hex : ∃ x ∈ rest, x ∉ base64urlAlphabet := by
      rcases hor with h | h
      · exact ⟨45, h, by decide⟩
      · exact ⟨95, h, by decide⟩
    have hnone := (bdecode_none_iff (by decide) (by decide) rest).mpr hex
    have hfc : Base.fromCode 117 = Except.ok Base.Base64url := rfl
    have halph : Base.Base64url.alphabet = Except.ok base64urlAlphabet := rfl
    simp only [pubDecode, List.headD_cons, hfc, halph, List.drop_succ_cons,
      List.drop_zero, hnone]

/-- C10 witness: `u-` fails to decode with `InvalidBaseString`. -/
theorem claim10_base64url_witness :
    pubDecode [117, 45] = Except.error Error.InvalidBaseString :=
  claim10_base64url.2.2.2.2.2.2 [45] (Or.inl (by decide))
